import Mathlib

/-!
# Verification of the lobstercage content-safety engine

Shallow embedding of the core of the `lobstercage` repository:
the detection engine (`src/scanner/engine.ts`), the redaction engine
(`src/forensic/redact.ts`), the PII rule configuration and Luhn check
(`src/stats/rules-config.ts`, originally `src/scanner/rules/pii.ts`),
the integrity subsystem (`src/security/integrity.ts` and its newer
revision with symlink handling), and the quarantine subsystem
(`src/security/quarantine.ts`).

JavaScript strings are modelled as `List Char` (UTF-16 code units become
characters; all inputs of interest are ASCII).  Fallible or possibly
non-terminating loops are modelled with explicit fuel returning `Option`,
where `none` means the loop did not finish within the given fuel.
-/

namespace Lobstercage

/-! ## Rule model (`src/scanner/engine.ts`, `src/scanner/types.ts` usage) -/

/-- `RuleAction`: the three escalation levels `warn | block | shutdown`. -/
inductive RuleAction where
  | warn
  | block
  | shutdown
deriving DecidableEq, Repr

/-- `ACTION_SEVERITY` from `src/scanner/engine.ts`: warn 0, block 1, shutdown 2. -/
def ACTION_SEVERITY : RuleAction → Nat
  | .warn => 0
  | .block => 1
  | .shutdown => 2

/-- Rule category (`pii | content | malware`). -/
inductive RuleCategory where
  | pii
  | content
  | malware
deriving DecidableEq, Repr

/-- PII pattern families configured in `PII_PATTERNS`. -/
inductive PiiType where
  | phone
  | email
  | ssn
  | creditCard
  | apiKey
  | password
deriving DecidableEq, Repr

/-- `Violation` record from `src/scanner/types.ts` as used by the engine. -/
structure Violation where
  ruleId : String
  category : RuleCategory
  action : RuleAction
  matchPreview : List Char
  position : Nat
deriving DecidableEq, Repr

/-! ## Redaction previews

Two distinct functions exist in the source:
`redact` in `src/scanner/engine.ts` (threshold 6) and
`redactString` in `src/forensic/redact.ts` (threshold 4).
-/

/-- `redact` from `src/scanner/engine.ts` lines 5-8:
if the match has length at most 6 the whole match is masked, otherwise the
first two and the last two characters are kept and the interior is masked. -/
def redact (m : List Char) : List Char :=
  if m.length ≤ 6 then List.replicate m.length '*'
  else m.take 2 ++ List.replicate (m.length - 4) '*' ++ m.drop (m.length - 2)

/-- `redactString` from `src/forensic/redact.ts` lines 31-36: identical shape
but with threshold 4 instead of 6. -/
def redactString (o : List Char) : List Char :=
  if o.length ≤ 4 then List.replicate o.length '*'
  else o.take 2 ++ List.replicate (o.length - 4) '*' ++ o.drop (o.length - 2)

/-- The interior of a string: everything except the first two and last two
characters. -/
def interior (s : List Char) : List Char := (s.drop 2).take (s.length - 4)

/-! ## Action resolution (`resolveAction`, engine.ts lines 108-116) -/

/-- One step of the `resolveAction` loop: keep the accumulator unless the
violation's action has strictly higher severity. -/
def resolveStep (mx : RuleAction) (v : Violation) : RuleAction :=
  if ACTION_SEVERITY v.action > ACTION_SEVERITY mx then v.action else mx

/-- `resolveAction` from `src/scanner/engine.ts`: fold over the violations
starting from `warn`, keeping the most severe action seen. -/
def resolveAction (violations : List Violation) : RuleAction :=
  violations.foldl resolveStep .warn

/-! ## Luhn check and the credit-card post-filter
(`src/stats/rules-config.ts` lines 286-300, `src/scanner/engine.ts` lines 23-33) -/

/-- JavaScript `\d` inside `replace(/\D/g, "")`: the ASCII digits 0-9. -/
def isAsciiDigit (c : Char) : Bool := decide ('0' ≤ c) && decide (c ≤ '9')

/-- `s.replace(/\D/g, "")`: keep only the ASCII digits. -/
def stripNonDigits (s : List Char) : List Char := s.filter isAsciiDigit

/-- `parseInt(nums[i], 10)` on a single digit character. -/
def digitVal (c : Char) : Nat := c.toNat - '0'.toNat

/-- `n *= 2; if (n > 9) n -= 9` from the Luhn loop. -/
def luhnDouble (n : Nat) : Nat := if 2 * n > 9 then 2 * n - 9 else 2 * n

/-- One summand of the Luhn loop: double when the alternate flag is set. -/
def luhnTerm (alternate : Bool) (c : Char) : Nat :=
  if alternate then luhnDouble (digitVal c) else digitVal c

/-- The loop of `luhnCheck` (rules-config.ts lines 290-298) processed from
the rightmost digit: the argument list here is the reversed digit string and
the `alternate` flag starts `false`. -/
def luhnSumAux : List Char → Bool → Nat
  | [], _ => 0
  | c :: rest, alternate => luhnTerm alternate c + luhnSumAux rest (!alternate)

/-- `luhnCheck` from `src/stats/rules-config.ts` (originally
`src/scanner/rules/pii.ts`): strip non-digits, sum from the right doubling
every second digit, valid iff the sum is a multiple of 10. -/
def luhnCheck (digits : List Char) : Bool :=
  decide (luhnSumAux (stripNonDigits digits).reverse false % 10 = 0)

/-- The Luhn digit sum exactly as the specification words it: the digit at
(0-based) position `r` from the right is doubled when `r` is odd (with 9
subtracted when the doubled digit exceeds 9), and all terms are summed.
This definition follows the spec text and is compared against the
implementation `luhnSumAux`. -/
def luhnSpecSum (nums : List Char) : Nat :=
  ((List.range nums.length).map (fun r =>
    if r % 2 = 1 then luhnDouble (digitVal (nums.reverse.getD r '0'))
    else digitVal (nums.reverse.getD r '0'))).sum

/-- The credit-card post-filter in `scanPiiRule` (engine.ts lines 24-27): a
match survives (`continue` is not taken) iff after stripping non-digits it
has 13 to 19 digits and passes `luhnCheck`. -/
def creditCardKeep (matched : List Char) : Bool :=
  let digits := stripNonDigits matched
  !(decide (digits.length < 13) || decide (digits.length > 19) || !luhnCheck digits)

/-- The phone post-filter in `scanPiiRule` (engine.ts lines 30-33): a match
survives iff it contains at least 7 digits. -/
def phoneKeep (matched : List Char) : Bool :=
  !(decide ((stripNonDigits matched).length < 7))

/-! ## Scanner engine (`src/scanner/engine.ts`)

JavaScript regular expressions are opaque to this development: a regex is
modelled as an abstract `exec` function from content and `lastIndex` to an
optional match (match index and matched text).  The `while`-loops of the
engine are modelled with explicit fuel; `none` means the loop did not
finish within the fuel, which is how the JavaScript infinite loop on
zero-length matches shows up in the model. -/

/-- Abstract model of a compiled global JavaScript regular expression. -/
structure JsRegex where
  exec : List Char → Nat → Option (Nat × List Char)

/-- `ScanRule` as used by `scanContent` (fields read by the engine).
Absent optional fields are modelled by `none` and `[]`. -/
structure ScanRule where
  id : String
  category : RuleCategory
  enabled : Bool
  action : RuleAction
  type : Option PiiType := none
  patterns : List JsRegex := []
  keywords : List (List Char) := []

/-- The violation pushed for a regex match (engine.ts lines 35-41, 55-61). -/
def mkViolation (rule : ScanRule) (matched : List Char) (idx : Nat) : Violation :=
  { ruleId := rule.id, category := rule.category, action := rule.action,
    matchPreview := redact matched, position := idx }

/-- The bare global-regex `while ((match = re.exec(content)) !== null)`
loop, collecting the raw matches.  After a match of text `m` at `idx` the
next search starts at `idx + m.length` (JavaScript sets `lastIndex` this
way, with no additional advance for an empty match). -/
def execLoop (re : JsRegex) (content : List Char) :
    Nat → Nat → Option (List (Nat × List Char))
  | 0, _ => none
  | fuel + 1, lastIndex =>
      match re.exec content lastIndex with
      | none => some []
      | some (idx, m) =>
          (execLoop re content fuel (idx + m.length)).map (fun rest => (idx, m) :: rest)

/-- Raw matches of a list of patterns, in pattern order. -/
def execLoops (content : List Char) (fuel : Nat) :
    List JsRegex → Option (List (Nat × List Char))
  | [] => some []
  | re :: rest =>
      match execLoop re content fuel 0 with
      | none => none
      | some ms => (execLoops content fuel rest).map (fun more => ms ++ more)

/-- The regex loop of `scanPiiRule` (engine.ts lines 19-42) for one
pattern: matches failing the credit-card or phone post-filter are skipped
(`continue`), the rest are pushed as violations. -/
def scanPiiLoop (re : JsRegex) (rule : ScanRule) (content : List Char) :
    Nat → Nat → Option (List Violation)
  | 0, _ => none
  | fuel + 1, lastIndex =>
      match re.exec content lastIndex with
      | none => some []
      | some (idx, m) =>
          if rule.type = some PiiType.creditCard ∧ creditCardKeep m = false then
            scanPiiLoop re rule content fuel (idx + m.length)
          else if rule.type = some PiiType.phone ∧ phoneKeep m = false then
            scanPiiLoop re rule content fuel (idx + m.length)
          else
            (scanPiiLoop re rule content fuel (idx + m.length)).map
              (fun rest => mkViolation rule m idx :: rest)

/-- The `for (const pattern of patterns)` loop of `scanPiiRule`. -/
def scanPiiPatterns (rule : ScanRule) (content : List Char) (fuel : Nat) :
    List JsRegex → Option (List Violation)
  | [] => some []
  | re :: rest =>
      match scanPiiLoop re rule content fuel 0 with
      | none => none
      | some vs => (scanPiiPatterns rule content fuel rest).map (fun more => vs ++ more)

/-- `scanPiiRule` (engine.ts lines 10-45).  The `PII_PATTERNS` table is an
abstract total map from PII type to its regex list. -/
def scanPiiRule (piiPatterns : PiiType → List JsRegex) (rule : ScanRule)
    (content : List Char) (fuel : Nat) : Option (List Violation) :=
  match rule.type with
  | none => some []
  | some t => scanPiiPatterns rule content fuel (piiPatterns t)

/-- A pattern table with no regexes, used for concrete witnesses. -/
def noPiiPatterns : PiiType → List JsRegex := fun _ => []

/-- JavaScript `toLowerCase` on our character lists (ASCII case folding). -/
def toLowerList (s : List Char) : List Char := s.map Char.toLower

/-- The search of `String.prototype.indexOf(needle, i)`: the least position
at or after `i` where `needle` occurs (`none` when there is none; an empty
needle occurs at every position up to the length). -/
def indexOfAux (hay needle : List Char) (i : Nat) : Option Nat :=
  if h : i + needle.length ≤ hay.length then
    if needle.isPrefixOf (hay.drop i) then some i
    else indexOfAux hay needle (i + 1)
  else none
termination_by hay.length + 1 - i
decreasing_by omega

/-- `hay.indexOf(needle, pos)`: JavaScript clamps the start position to the
string length before searching. -/
def indexOfFrom (hay needle : List Char) (pos : Nat) : Option Nat :=
  indexOfAux hay needle (min pos hay.length)

/-- The violation pushed for a keyword hit (engine.ts lines 72-78):
the preview is built from `content.slice(pos, pos + keyword.length)`. -/
def mkKeywordViolation (rule : ScanRule) (content : List Char) (p klen : Nat) :
    Violation :=
  { ruleId := rule.id, category := rule.category, action := rule.action,
    matchPreview := redact ((content.drop p).take klen), position := p }

/-- The keyword `while` loop of `scanContentRule` (engine.ts lines 69-80):
search case-insensitively from `pos`, push a violation, then advance by the
keyword's length. -/
def keywordLoop (rule : ScanRule) (content lowerContent keyword lowerKw : List Char) :
    Nat → Nat → Option (List Violation)
  | 0, _ => none
  | fuel + 1, pos =>
      match indexOfFrom lowerContent lowerKw pos with
      | none => some []
      | some p =>
          (keywordLoop rule content lowerContent keyword lowerKw fuel
              (p + keyword.length)).map
            (fun rest => mkKeywordViolation rule content p keyword.length :: rest)

/-- The `for (const keyword of rule.keywords)` loop of `scanContentRule`. -/
def scanKeywords (rule : ScanRule) (content lowerContent : List Char) (fuel : Nat) :
    List (List Char) → Option (List Violation)
  | [] => some []
  | kw :: rest =>
      match keywordLoop rule content lowerContent kw (toLowerList kw) fuel 0 with
      | none => none
      | some vs =>
          (scanKeywords rule content lowerContent fuel rest).map (fun more => vs ++ more)

/-- The regex loop of `scanContentRule` (engine.ts lines 52-62): every
match is pushed, with no post-filter. -/
def contentPatternLoop (re : JsRegex) (rule : ScanRule) (content : List Char) :
    Nat → Nat → Option (List Violation)
  | 0, _ => none
  | fuel + 1, lastIndex =>
      match re.exec content lastIndex with
      | none => some []
      | some (idx, m) =>
          (contentPatternLoop re rule content fuel (idx + m.length)).map
            (fun rest => mkViolation rule m idx :: rest)

/-- The `for (const pattern of rule.patterns)` loop of `scanContentRule`. -/
def scanPatterns (rule : ScanRule) (content : List Char) (fuel : Nat) :
    List JsRegex → Option (List Violation)
  | [] => some []
  | re :: rest =>
      match contentPatternLoop re rule content fuel 0 with
      | none => none
      | some vs => (scanPatterns rule content fuel rest).map (fun more => vs ++ more)

/-- `scanContentRule` (engine.ts lines 47-85): regex matches first, then
keyword hits, appended in order. -/
def scanContentRule (rule : ScanRule) (content : List Char) (fuel : Nat) :
    Option (List Violation) :=
  match scanPatterns rule content fuel rule.patterns with
  | none => none
  | some v1 =>
      (scanKeywords rule content (toLowerList content) fuel rule.keywords).map
        (fun v2 => v1 ++ v2)

/-- `scanContent` (engine.ts lines 88-99): skip disabled rules, dispatch on
the rule category, concatenate the violations in rule order. -/
def scanContent (piiPatterns : PiiType → List JsRegex) (content : List Char)
    (fuel : Nat) : List ScanRule → Option (List Violation)
  | [] => some []
  | rule :: rest =>
      if rule.enabled = false then scanContent piiPatterns content fuel rest
      else
        match (if rule.category = RuleCategory.pii then
                scanPiiRule piiPatterns rule content fuel
              else scanContentRule rule content fuel) with
        | none => none
        | some vs => (scanContent piiPatterns content fuel rest).map (fun more => vs ++ more)

/-- Termination of a scan, quantified over all fuels: the JavaScript loop
finishes iff some fuel suffices in the model. -/
def scanTerminatesOn (piiPatterns : PiiType → List JsRegex) (rules : List ScanRule)
    (content : List Char) : Prop :=
  ∃ fuel, (scanContent piiPatterns content fuel rules).isSome

/-- A content rule whose keyword list contains the empty keyword. -/
def emptyKeywordRule : ScanRule :=
  { id := "kw", category := RuleCategory.content, enabled := true,
    action := RuleAction.warn, keywords := [[]] }

/-- A regex makes progress on `content` when every match starts at or after
the requested `lastIndex`, is non-empty, and stays within the content.
JavaScript regexes whose pattern cannot match the empty string satisfy
this. -/
def RegexProgressive (re : JsRegex) (content : List Char) : Prop :=
  ∀ lastIndex idx m, re.exec content lastIndex = some (idx, m) →
    lastIndex ≤ idx ∧ 0 < m.length ∧ idx + m.length ≤ content.length

/-- A content rule with one non-empty keyword, for concrete witnesses. -/
def sampleKeywordRule : ScanRule :=
  { id := "kw1", category := RuleCategory.content, enabled := true,
    action := RuleAction.warn, keywords := [['a']] }

/-! ## JSONL parsing and serialization (`src/forensic/redact.ts` 53-78)

`JSON.parse` / `JSON.stringify` are opaque: the parser is an abstract
function `List Char → Option α` (`none` models a thrown `SyntaxError`) and
the serializer an abstract `α → List Char`. -/

/-- An entry of a parsed JSONL file: either a parsed JSON value or the
`{ __raw: trimmed }` passthrough stored for an unparseable line. -/
inductive JsonlEntry (α : Type) where
  | parsed (value : α)
  | raw (text : List Char)
deriving DecidableEq, Repr

/-- `text.split("\n")`: split on newline, keeping empty segments. -/
def splitOnNl : List Char → List (List Char)
  | [] => [[]]
  | c :: rest =>
      match splitOnNl rest with
      | [] => [[c]]
      | line :: more =>
          if c = '\n' then [] :: line :: more else (c :: line) :: more

/-- The whitespace characters removed by `String.prototype.trim`
(the ASCII ones; all inputs of interest are ASCII). -/
def isJsWhitespace (c : Char) : Bool :=
  decide (c = ' ') || decide (c = '\t') || decide (c = '\n') || decide (c = '\r')

/-- `line.trim()`: strip leading and trailing whitespace. -/
def trimWs (s : List Char) : List Char :=
  ((s.dropWhile isJsWhitespace).reverse.dropWhile isJsWhitespace).reverse

/-- `parseJsonl` from `src/forensic/redact.ts` lines 53-66: split into
lines, trim each, skip blank lines, parse, and keep unparseable lines as
raw passthrough entries holding the trimmed text. -/
def parseJsonl {α : Type} (parse : List Char → Option α) (text : List Char) :
    List (JsonlEntry α) :=
  (splitOnNl text).filterMap (fun line =>
    let trimmed := trimWs line
    if trimmed = [] then none
    else
      match parse trimmed with
      | some v => some (JsonlEntry.parsed v)
      | none => some (JsonlEntry.raw trimmed))

/-- One serialized line (`JSON.stringify(entry)`, or the stored raw text
for a passthrough entry). -/
def entryToLine {α : Type} (ser : α → List Char) : JsonlEntry α → List Char
  | .parsed v => ser v
  | .raw r => r

/-- `lines.join("\n")`. -/
def joinNl : List (List Char) → List Char
  | [] => []
  | [l] => l
  | l :: rest => l ++ '\n' :: joinNl rest

/-- `serializeJsonl` from `src/forensic/redact.ts` lines 69-78: map each
entry to its line, join with newlines, and append a trailing newline. -/
def serializeJsonl {α : Type} (ser : α → List Char) (entries : List (JsonlEntry α)) :
    List Char :=
  joinNl (entries.map (entryToLine ser)) ++ ['\n']

/-! ## SHA-256 (`node:crypto` `createHash("sha256")`)

A concrete executable SHA-256 over byte lists (bytes and 32-bit words are
`Nat` with explicit `% 2^32`), validated against the standard test vectors
below.  Strings are hashed through their code points, which coincides with
UTF-8 for the ASCII inputs of interest. -/

/-- Truncate to a 32-bit word. -/
def w32 (n : Nat) : Nat := n % 4294967296

/-- 32-bit rotate right. -/
def rotr (n x : Nat) : Nat := w32 ((x >>> n) ||| (x <<< (32 - n)))

def bigSigma0 (x : Nat) : Nat := rotr 2 x ^^^ rotr 13 x ^^^ rotr 22 x

def bigSigma1 (x : Nat) : Nat := rotr 6 x ^^^ rotr 11 x ^^^ rotr 25 x

def smallSigma0 (x : Nat) : Nat := rotr 7 x ^^^ rotr 18 x ^^^ (x >>> 3)

def smallSigma1 (x : Nat) : Nat := rotr 17 x ^^^ rotr 19 x ^^^ (x >>> 10)

def ch (x y z : Nat) : Nat := (x &&& y) ^^^ ((x ^^^ 4294967295) &&& z)

def maj (x y z : Nat) : Nat := (x &&& y) ^^^ (x &&& z) ^^^ (y &&& z)

/-- The 64 SHA-256 round constants (FIPS 180-4, written in decimal). -/
def K : List Nat :=
  [1116352408, 1899447441, 3049323471, 3921009573, 961987163,
   1508970993, 2453635748, 2870763221, 3624381080, 310598401,
   607225278, 1426881987, 1925078388, 2162078206, 2614888103,
   3248222580, 3835390401, 4022224774, 264347078, 604807628,
   770255983, 1249150122, 1555081692, 1996064986, 2554220882,
   2821834349, 2952996808, 3210313671, 3336571891, 3584528711,
   113926993, 338241895, 666307205, 773529912, 1294757372,
   1396182291, 1695183700, 1986661051, 2177026350, 2456956037,
   2730485921, 2820302411, 3259730800, 3345764771, 3516065817,
   3600352804, 4094571909, 275423344, 430227734, 506948616,
   659060556, 883997877, 958139571, 1322822218, 1537002063,
   1747873779, 1955562222, 2024104815, 2227730452, 2361852424,
   2428436474, 2756734187, 3204031479, 3329325298]

/-- The SHA-256 initial hash state (FIPS 180-4, written in decimal). -/
def H0 : List Nat :=
  [1779033703, 3144134277, 1013904242,
   2773480762, 1359893119, 2600822924,
   528734635, 1541459225]

/-- Big-endian 64-bit length field. -/
def be64 (n : Nat) : List Nat :=
  [(n >>> 56) % 256, (n >>> 48) % 256, (n >>> 40) % 256, (n >>> 32) % 256,
   (n >>> 24) % 256, (n >>> 16) % 256, (n >>> 8) % 256, n % 256]

/-- SHA-256 padding: append `0x80`, zero-fill to 56 mod 64, then the
bit length big-endian. -/
def padMessage (ms : List Nat) : List Nat :=
  let L := ms.length
  let k := (64 + 55 - (L % 64)) % 64
  ms ++ [128] ++ List.replicate k 0 ++ be64 (8 * L)

/-- Group bytes into big-endian 32-bit words. -/
def bytesToWords : List Nat → List Nat
  | b0 :: b1 :: b2 :: b3 :: rest =>
      (((b0 * 256 + b1) * 256 + b2) * 256 + b3) :: bytesToWords rest
  | _ => []

/-- Chunk a word list into 16-word blocks (fuel-based so that the kernel
can evaluate it; the fuel `ws.length` always suffices). -/
def toBlocksFuel : Nat → List Nat → List (List Nat)
  | 0, _ => []
  | _, [] => []
  | n + 1, w :: ws => ((w :: ws).take 16) :: toBlocksFuel n ((w :: ws).drop 16)

def toBlocks (ws : List Nat) : List (List Nat) := toBlocksFuel ws.length ws

/-- Extend a 16-word block to the 64-word message schedule. -/
def extendSchedule : Nat → List Nat → List Nat
  | 0, ws => ws
  | n + 1, ws =>
      extendSchedule n (ws ++ [w32 (smallSigma1 (ws.getD (ws.length - 2) 0)
        + ws.getD (ws.length - 7) 0 + smallSigma0 (ws.getD (ws.length - 15) 0)
        + ws.getD (ws.length - 16) 0)])

/-- One round of the SHA-256 compression function on the 8-word state. -/
def compressRound (st : List Nat) (kw : Nat × Nat) : List Nat :=
  match st with
  | [a, b, c, d, e, f, g, h] =>
      let t1 := w32 (h + bigSigma1 e + ch e f g + kw.1 + kw.2)
      let t2 := w32 (bigSigma0 a + maj a b c)
      [w32 (t1 + t2), a, b, c, w32 (d + t1), e, f, g]
  | other => other

/-- Compress one 16-word block into the running hash state. -/
def compressBlock (H : List Nat) (block : List Nat) : List Nat :=
  let W := extendSchedule 48 block
  let st := (K.zip W).foldl compressRound H
  List.zipWith (fun x y => w32 (x + y)) H st

/-- SHA-256 of a byte list, as eight 32-bit words. -/
def sha256Words (ms : List Nat) : List Nat :=
  (toBlocks (bytesToWords (padMessage ms))).foldl compressBlock H0

def hexDigit (n : Nat) : Char :=
  if n < 10 then Char.ofNat (48 + n) else Char.ofNat (87 + n)

def wordToHex (w : Nat) : List Char :=
  [hexDigit ((w >>> 28) % 16), hexDigit ((w >>> 24) % 16),
   hexDigit ((w >>> 20) % 16), hexDigit ((w >>> 16) % 16),
   hexDigit ((w >>> 12) % 16), hexDigit ((w >>> 8) % 16),
   hexDigit ((w >>> 4) % 16), hexDigit (w % 16)]

/-- SHA-256 hex digest, as `crypto.createHash("sha256").digest("hex")`. -/
def sha256Hex (ms : List Nat) : List Char :=
  ((sha256Words ms).map wordToHex).flatten

/-- Bytes of a string: code points, which is UTF-8 for ASCII input. -/
def strBytes (s : String) : List Nat := s.toList.map Char.toNat

/-! ## Aggregate directory hash (`hashDirectorySha256`,
`src/unnamed/part_008` lines 127-144 / `src/security/integrity.ts` 77-94)

The filesystem side is abstracted away: the function below takes the
snapshot map (relative path to content hash, as association pairs with
unique keys, since JavaScript object keys are unique) and performs the pure
aggregation: sort entries by path, render one line per file, join with
newlines, hash.  `localeCompare` is modelled as code-point order. -/

/-- One line of the aggregate pre-image: `` `${hash}  ${path}` ``. -/
def dirLine (entry : String × String) : String := entry.2 ++ "  " ++ entry.1

/-- Path-key comparison used by the `.sort(([a], [b]) => a.localeCompare(b))`. -/
def pathKeyLe (a b : String × String) : Prop := a.1 ≤ b.1

/-- Strict path-key comparison (used only in proofs). -/
def pathKeyLt (a b : String × String) : Prop := a.1 < b.1

instance : DecidableRel pathKeyLe :=
  fun a b => inferInstanceAs (Decidable (a.1 ≤ b.1))

instance : DecidableRel pathKeyLt :=
  fun a b => inferInstanceAs (Decidable (a.1 < b.1))

/-- `Object.entries(files).sort(([a], [b]) => a.localeCompare(b))`: sort
the snapshot entries by relative path. -/
def sortByPath (files : List (String × String)) : List (String × String) :=
  List.insertionSort pathKeyLe files

/-- The pure aggregation of `hashDirectorySha256`: join the sorted
`"<hash>  <path>"` lines with `"\n"` (note: no trailing newline) and hash
the result. -/
def hashDirectorySha256 (files : List (String × String)) : List Char :=
  sha256Hex (strBytes (String.intercalate "\n" ((sortByPath files).map dirLine)))

/-- The aggregate as the claim words it: the concatenation of one
`"<hash>  <path>\n"` line per file (every line newline-terminated),
sorted by path, then hashed.  Compared against the implementation. -/
def claimAggregate (files : List (String × String)) : List Char :=
  sha256Hex (strBytes (String.join ((sortByPath files).map
    (fun entry => dirLine entry ++ "\n"))))

/-! ## Quarantine subsystem (`src/security/quarantine.ts`)

The ledger is the in-memory `db.records` array; the filesystem is an
abstract map from path to optional content, on which `rename` acts.  The
source mutates the found record in place (a reference into the array) and
then saves the whole array; this is modelled by updating the first record
satisfying the same predicate `find?` used, which is exactly the record
returned. -/

/-- `QuarantineRecord` from `src/security/quarantine.ts` lines 6-15. -/
structure QuarantineRecord where
  id : String
  skillName : String
  originalPath : String
  quarantinedPath : String
  detectedRuleIds : List String
  reason : String
  timestamp : String
  restoredAt : Option String := none
deriving DecidableEq, Repr

/-- `!r.restoredAt`: a record is active when `restoredAt` is absent. -/
def isActive (r : QuarantineRecord) : Bool := r.restoredAt.isNone

/-- `r.id === identifier || r.skillName === identifier`. -/
def recordMatches (identifier : String) (r : QuarantineRecord) : Bool :=
  r.id == identifier || r.skillName == identifier

/-- Abstract file store: path to optional content. -/
def FsMap : Type := String → Option String

/-- `fs.rename(src, dst)` on the abstract file store. -/
def renameFs (files : FsMap) (src dst : String) : FsMap :=
  fun p => if p = dst then files src else if p = src then none else files p

/-- `record.restoredAt = new Date().toISOString()`. -/
def setRestoredAt (r : QuarantineRecord) (now : String) : QuarantineRecord :=
  { r with restoredAt := some now }

/-- The in-place mutation of the found array element followed by `saveDb`:
replace the first record satisfying the predicate. -/
def markFirst (p : QuarantineRecord → Bool) (now : String) :
    List QuarantineRecord → List QuarantineRecord
  | [] => []
  | r :: rest => if p r then setRestoredAt r now :: rest else r :: markFirst p now rest

/-- The result of `restoreQuarantinedSkill`. -/
structure RestoreResult where
  restored : Bool
  message : String
  record : Option QuarantineRecord := none

/-- `restoreQuarantinedSkill` from `src/security/quarantine.ts` lines
85-112: filter the ledger to active records, `find` the first one matching
the identifier by id or skill name; on a hit, move the quarantined item
back to its original path, set `restoredAt` and persist the ledger. -/
def restoreQuarantinedSkill (db : List QuarantineRecord) (files : FsMap)
    (identifier now : String) :
    RestoreResult × List QuarantineRecord × FsMap :=
  match (db.filter (fun r => isActive r)).find? (fun r => recordMatches identifier r) with
  | none =>
      ({ restored := false,
         message := "No active quarantine record found for '" ++ identifier ++ "'" },
       db, files)
  | some r =>
      ({ restored := true,
         message := "Restored " ++ r.skillName ++ " to " ++ r.originalPath,
         record := some (setRestoredAt r now) },
       markFirst (fun x => isActive x && recordMatches identifier x) now db,
       renameFs files r.quarantinedPath r.originalPath)

/-- The most recently created matching active record: the ledger is
append-only on quarantine, so creation order is ledger order and the most
recent is the last. -/
def lastMatchingActive (db : List QuarantineRecord) (identifier : String) :
    Option QuarantineRecord :=
  (db.filter (fun r => isActive r && recordMatches identifier r)).getLast?

/-- Concrete ledger records for the counterexample: two active quarantine
records for the same skill name, `recA` created before `recB`. -/
def recA : QuarantineRecord :=
  { id := "id-a", skillName := "foo", originalPath := "/ext/foo",
    quarantinedPath := "/q/2024-01-01-foo-aaaaaaaa", detectedRuleIds := [],
    reason := "malware", timestamp := "2024-01-01T00:00:00.000Z" }

def recB : QuarantineRecord :=
  { id := "id-b", skillName := "foo", originalPath := "/ext/foo",
    quarantinedPath := "/q/2024-02-01-foo-bbbbbbbb", detectedRuleIds := [],
    reason := "malware", timestamp := "2024-02-01T00:00:00.000Z" }

/-! ## Integrity traversal with symlink protection
(`listFilesRecursive` / `snapshotDirectoryHashes`, `src/unnamed/part_008`
lines 28-124, the current revision of `src/security/integrity.ts`)

The filesystem is abstract: paths are segment lists and the system calls
`lstat` (does not follow links), `stat` (follows links), `realpath`,
`readdir` and the content hash are opaque functions of the filesystem
value.  `resolved.startsWith(root + "/") || resolved === root` becomes the
segment-prefix test.  The recursion is fuel-based (the source terminates
through its visited set); the mutated shared `Set` of visited real paths is
threaded through explicitly. -/

/-- A filesystem path as a list of segments. -/
abbrev FsPath := List String

/-- What a single `fs.Stats` distinguishes here: directory (with its
entries for `readdir`), regular file (with its size), symbolic link, or
anything else (sockets, devices, ...). -/
inductive FsNode where
  | dir (entries : List String)
  | file (size : Nat)
  | symlink
  | other
deriving DecidableEq, Repr

/-- Abstract filesystem: each field models one `node:fs` call.  `lstat`
never follows links (so a symlink path reports `symlink`), `statF` models
`stat` which follows links, `realpath` resolves to the canonical target,
`readdir` lists a directory, and `contentHash` is the streamed SHA-256 of
a file (`none` models a read failure, which `snapshotDirectoryHashes`
skips). -/
structure Fsys where
  lstat : FsPath → Option FsNode
  statF : FsPath → Option FsNode
  realpath : FsPath → Option FsPath
  readdir : FsPath → Option (List String)
  contentHash : FsPath → Option String

/-- `MAX_HASHABLE_SIZE`: the 50 MB cap. -/
def MAX_HASHABLE_SIZE : Nat := 52428800

/-- `resolved.startsWith(root + "/") || resolved === root` in the segment
model: `root` is a prefix of (or equal to) `resolved`. -/
def inRootB (resolved root : FsPath) : Bool := root.isPrefixOf resolved

/-- The body of the `for (const entry of entries)` loop of
`listFilesRecursive`, processing one entry name and producing the files it
contributes together with the updated visited set; `recurse` is the
recursive call at the remaining fuel. -/
def lfrStep (recurse : FsPath → List FsPath → List FsPath × List FsPath)
    (fs : Fsys) (dir root : FsPath) (seen : List FsPath) (entry : String) :
    List FsPath × List FsPath :=
  match fs.lstat (dir ++ [entry]) with
  | none => ([], seen)
  | some (FsNode.dir _) => recurse (dir ++ [entry]) seen
  | some (FsNode.file size) =>
      if size ≤ MAX_HASHABLE_SIZE then ([dir ++ [entry]], seen) else ([], seen)
  | some FsNode.symlink =>
      match fs.realpath (dir ++ [entry]) with
      | none => ([], seen)
      | some resolved =>
          if inRootB resolved root then
            match fs.statF (dir ++ [entry]) with
            | some (FsNode.file size) =>
                if size ≤ MAX_HASHABLE_SIZE then ([dir ++ [entry]], seen) else ([], seen)
            | some (FsNode.dir _) => recurse resolved seen
            | _ => ([], seen)
          else ([], seen)
  | some FsNode.other => ([], seen)

/-- The entry loop: run `lfrStep` on each entry, concatenating the files
and threading the (mutably shared) visited set. -/
def lfrGo (recurse : FsPath → List FsPath → List FsPath × List FsPath)
    (fs : Fsys) (dir root : FsPath) :
    List String → List FsPath → List FsPath × List FsPath
  | [], seen => ([], seen)
  | e :: rest, seen =>
      let step := lfrStep recurse fs dir root seen e
      let more := lfrGo recurse fs dir root rest step.2
      (step.1 ++ more.1, more.2)

/-- `listFilesRecursive` from `src/unnamed/part_008` lines 28-90:
resolve the directory's real path (failure yields nothing), stop on a
visited real path (symlink-loop protection), mark it visited, read the
directory and process its entries.  Fuel-based; the result carries the
final visited set. -/
def listFilesRecursive (fs : Fsys) :
    Nat → FsPath → FsPath → List FsPath → List FsPath × List FsPath
  | 0, _, _, seen => ([], seen)
  | fuel + 1, dir, root, seen =>
      match fs.realpath dir with
      | none => ([], seen)
      | some resolvedDir =>
          if resolvedDir ∈ seen then ([], seen)
          else
            match fs.readdir dir with
            | none => ([], resolvedDir :: seen)
            | some entries =>
                lfrGo (fun p s => listFilesRecursive fs fuel p root s) fs dir root
                  entries (resolvedDir :: seen)

/-- `path.relative(rootDir, filePath)` for paths under the root, in the
segment model. -/
def relTo (root p : FsPath) : FsPath := p.drop root.length

/-- Sort key used for the pre-hash `files.sort((a, b) => a.localeCompare(b))`. -/
def pathSortKey (p : FsPath) : String := String.intercalate "/" p

def fsPathLe (a b : FsPath) : Prop := pathSortKey a ≤ pathSortKey b

instance : DecidableRel fsPathLe :=
  fun a b => inferInstanceAs (Decidable (pathSortKey a ≤ pathSortKey b))

/-- `snapshotDirectoryHashes` (part_008 lines 104-124), filesystem side
abstracted: list the files, sort them, and map each to its relative path
and content hash, skipping files whose hash read fails. -/
def snapshotDirectoryHashes (fs : Fsys) (fuel : Nat) (rootDir : FsPath) :
    List (FsPath × String) :=
  (List.insertionSort fsPathLe (listFilesRecursive fs fuel rootDir rootDir []).1).filterMap
    (fun p => (fs.contentHash p).map (fun h => (relTo rootDir p, h)))

/-- The invariant carried by every path the traversal returns: it lies
under the root, and if it is a symlink its real target resolves inside the
root. -/
def GoodFile (fs : Fsys) (root : FsPath) (p : FsPath) : Prop :=
  root <+: p ∧
  (fs.lstat p = some FsNode.symlink →
    ∃ rp, fs.realpath p = some rp ∧ inRootB rp root = true)

/-- A concrete sample filesystem for witnesses: root `r` holding a regular
file `data`, a symlink `evil` escaping to `secret/key`, and a symlink
`good` resolving to the in-root file `data`. -/
def sampleFsys : Fsys :=
  { lstat := fun p =>
      if p = ["r"] then some (FsNode.dir ["data", "evil", "good"])
      else if p = ["r", "data"] then some (FsNode.file 3)
      else if p = ["r", "evil"] then some FsNode.symlink
      else if p = ["r", "good"] then some FsNode.symlink
      else none,
    statF := fun p =>
      if p = ["r", "data"] then some (FsNode.file 3)
      else if p = ["r", "evil"] then some (FsNode.file 3)
      else if p = ["r", "good"] then some (FsNode.file 3)
      else none,
    realpath := fun p =>
      if p = ["r"] then some ["r"]
      else if p = ["r", "data"] then some ["r", "data"]
      else if p = ["r", "evil"] then some ["secret", "key"]
      else if p = ["r", "good"] then some ["r", "data"]
      else none,
    readdir := fun p =>
      if p = ["r"] then some ["data", "evil", "good"] else none,
    contentHash := fun _ => some "h" }

/-! ### Lemmas about the redaction shape -/

theorem redact_length (s : List Char) : (redact s).length = s.length := by
  unfold redact
  split
  · simp
  · rename_i h
    push_neg at h
    simp only [List.length_append, List.length_take, List.length_replicate,
      List.length_drop]
    omega

theorem redactString_length (s : List Char) : (redactString s).length = s.length := by
  unfold redactString
  split
  · simp
  · rename_i h
    push_neg at h
    simp only [List.length_append, List.length_take, List.length_replicate,
      List.length_drop]
    omega

/-- Decomposition of a list into its first two characters, its interior, and
its last two characters (valid as soon as the list has at least 4 elements). -/
theorem take_interior_drop (s : List Char) (h : 4 ≤ s.length) :
    s = s.take 2 ++ interior s ++ s.drop (s.length - 2) := by
  have h3 : (s.drop 2).drop (s.length - 4) = s.drop (s.length - 2) := by
    rw [List.drop_drop]
    congr 1
    omega
  rw [interior, List.append_assoc, ← h3, List.take_append_drop, List.take_append_drop]

/-- The masked form equals the original exactly when the interior is all
mask characters. -/
theorem masked_eq_iff (s : List Char) (h : 4 < s.length) :
    s.take 2 ++ List.replicate (s.length - 4) '*' ++ s.drop (s.length - 2) = s ↔
      interior s = List.replicate (s.length - 4) '*' := by
  constructor
  · intro he
    have hd := take_interior_drop s (by omega)
    rw [List.append_assoc] at he hd
    have := he.trans hd
    have h2 := List.append_cancel_left this
    exact (List.append_cancel_right h2).symm
  · intro hi
    rw [← hi]
    exact (take_interior_drop s (by omega)).symm

/-- The first two characters survive masking (strings longer than 4). -/
theorem mask_take2 (s : List Char) (h : 4 < s.length) :
    (s.take 2 ++ List.replicate (s.length - 4) '*' ++ s.drop (s.length - 2)).take 2
      = s.take 2 := by
  have hlen : (s.take 2).length = 2 := by
    simp only [List.length_take]
    omega
  rw [List.append_assoc, List.take_append_eq_append_take, hlen]
  simp [List.take_of_length_le (le_of_eq hlen)]

/-- The last two characters survive masking (strings longer than 4). -/
theorem mask_drop2 (s : List Char) (h : 4 < s.length) :
    (s.take 2 ++ List.replicate (s.length - 4) '*' ++ s.drop (s.length - 2)).drop
        (s.length - 2)
      = s.drop (s.length - 2) := by
  have hlen : (s.take 2 ++ List.replicate (s.length - 4) '*').length = s.length - 2 := by
    simp only [List.length_append, List.length_take, List.length_replicate]
    omega
  rw [← hlen, List.drop_left]

/-- The interior of a three-part append recovers the middle part when the
first part has length two and the middle has the interior length. -/
theorem interior_append (A B C : List Char) (hA : A.length = 2)
    (hB : B.length = (A ++ B ++ C).length - 4) :
    interior (A ++ B ++ C) = B := by
  unfold interior
  rw [List.append_assoc, ← hA, List.drop_left]
  have hlen : (A ++ (B ++ C)).length - 4 = B.length := by
    rw [← List.append_assoc, ← hB]
  rw [hlen, List.take_left]

/-- The interior of the masked form is entirely mask characters. -/
theorem mask_interior (s : List Char) (h : 4 < s.length) :
    interior (s.take 2 ++ List.replicate (s.length - 4) '*' ++ s.drop (s.length - 2))
      = List.replicate (s.length - 4) '*' := by
  refine interior_append _ _ _ ?_ ?_
  · simp only [List.length_take]
    omega
  · simp only [List.length_append, List.length_take, List.length_replicate,
      List.length_drop]
    omega

/-! ### Claim theorems: redaction previews -/

/-- C7 counterexample: on the five-character string `abcde` the scanner's
`redact` (threshold 6) masks everything, while the redaction engine's
`redactString` (threshold 4) keeps the first and last two characters, so the
two code paths do not apply a single uniform threshold. -/
theorem redact_ne_redactString_on_abcde :
    redact ['a', 'b', 'c', 'd', 'e'] ≠ redactString ['a', 'b', 'c', 'd', 'e'] := by
  decide

/-- C7 (amended): `redact` (threshold 6) and `redactString` (threshold 4)
produce the same preview exactly on the inputs outside the disputed band,
namely every string of length at most 4 or greater than 6; they are not one
uniform function. -/
theorem redact_eq_redactString_outside_band (s : List Char)
    (h : s.length ≤ 4 ∨ 6 < s.length) : redact s = redactString s := by
  unfold redact redactString
  rcases h with h | h
  · rw [if_pos (by omega), if_pos h]
  · rw [if_neg (by omega), if_neg (by omega)]

/-- Witness for C7 (amended) at the concrete 7-character input `abcdefg`. -/
theorem redact_eq_redactString_outside_band_witness :
    redact ['a', 'b', 'c', 'd', 'e', 'f', 'g']
      = redactString ['a', 'b', 'c', 'd', 'e', 'f', 'g'] :=
  redact_eq_redactString_outside_band ['a', 'b', 'c', 'd', 'e', 'f', 'g']
    (Or.inr (by decide))

/-- C6 counterexample: the raw match `ab***cd` is strictly longer than the
scanner threshold 6, yet `redact` returns it unchanged (its interior is
already all mask characters); likewise `ab*cd` exceeds the redaction-engine
threshold 4 yet `redactString` returns it unchanged. -/
theorem redact_preview_can_equal_raw :
    6 < ([ 'a', 'b', '*', '*', '*', 'c', 'd' ] : List Char).length ∧
      redact ['a', 'b', '*', '*', '*', 'c', 'd'] = ['a', 'b', '*', '*', '*', 'c', 'd'] ∧
      4 < ([ 'a', 'b', '*', 'c', 'd' ] : List Char).length ∧
      redactString ['a', 'b', '*', 'c', 'd'] = ['a', 'b', '*', 'c', 'd'] := by
  decide

/-- C6 (amended): the redacted preview differs from the raw matched text
whenever the raw text is strictly longer than the masking threshold (6 for
the scanner's `redact`, 4 for the redaction engine's `redactString`) and its
interior is not already entirely mask characters. -/
theorem preview_ne_raw (raw : List Char) :
    (6 < raw.length → interior raw ≠ List.replicate (raw.length - 4) '*' →
      redact raw ≠ raw) ∧
    (4 < raw.length → interior raw ≠ List.replicate (raw.length - 4) '*' →
      redactString raw ≠ raw) := by
  constructor
  · intro h hint
    unfold redact
    rw [if_neg (by omega)]
    intro he
    exact hint ((masked_eq_iff raw (by omega)).mp he)
  · intro h hint
    unfold redactString
    rw [if_neg (by omega)]
    intro he
    exact hint ((masked_eq_iff raw (by omega)).mp he)

/-- Witness for C6 (amended) at the concrete input `secret!` (length 7). -/
theorem preview_ne_raw_witness :
    redact ['s', 'e', 'c', 'r', 'e', 't', '!'] ≠ ['s', 'e', 'c', 'r', 'e', 't', '!'] :=
  (preview_ne_raw ['s', 'e', 'c', 'r', 'e', 't', '!']).1 (by decide) (by decide)

/-- C10: both preview functions preserve the length of their input exactly;
at or below the threshold every output character is the mask character, and
above the threshold the first two and last two characters are kept while
every interior character is the mask character. -/
theorem preview_shape (s : List Char) :
    (redact s).length = s.length ∧ (redactString s).length = s.length ∧
    (s.length ≤ 6 → ∀ c ∈ redact s, c = '*') ∧
    (6 < s.length → (redact s).take 2 = s.take 2 ∧
      (redact s).drop (s.length - 2) = s.drop (s.length - 2) ∧
      ∀ c ∈ interior (redact s), c = '*') ∧
    (s.length ≤ 4 → ∀ c ∈ redactString s, c = '*') ∧
    (4 < s.length → (redactString s).take 2 = s.take 2 ∧
      (redactString s).drop (s.length - 2) = s.drop (s.length - 2) ∧
      ∀ c ∈ interior (redactString s), c = '*') := by
  refine ⟨redact_length s, redactString_length s, ?_, ?_, ?_, ?_⟩
  · intro h c hc
    unfold redact at hc
    rw [if_pos h] at hc
    exact List.eq_of_mem_replicate hc
  · intro h
    unfold redact
    rw [if_neg (by omega)]
    refine ⟨mask_take2 s (by omega), mask_drop2 s (by omega), ?_⟩
    intro c hc
    rw [mask_interior s (by omega)] at hc
    exact List.eq_of_mem_replicate hc
  · intro h c hc
    unfold redactString at hc
    rw [if_pos h] at hc
    exact List.eq_of_mem_replicate hc
  · intro h
    unfold redactString
    rw [if_neg (by omega)]
    refine ⟨mask_take2 s h, mask_drop2 s h, ?_⟩
    intro c hc
    rw [mask_interior s h] at hc
    exact List.eq_of_mem_replicate hc

/-- Witness for C10 at the concrete input `abcdefgh` (length 8). -/
theorem preview_shape_witness :
    (redact ['a', 'b', 'c', 'd', 'e', 'f', 'g', 'h']).take 2
      = (['a', 'b', 'c', 'd', 'e', 'f', 'g', 'h'] : List Char).take 2 :=
  ((preview_shape ['a', 'b', 'c', 'd', 'e', 'f', 'g', 'h']).2.2.2.1 (by decide)).1

/-! ### Claim theorem: action resolution (C9) -/

/-- Every property of the `resolveAction` fold, generalized over the
accumulator: the result dominates the accumulator, is either the accumulator
or one of the violations' actions, and dominates every violation. -/
theorem foldl_resolve (vs : List Violation) : ∀ a : RuleAction,
    ACTION_SEVERITY a ≤ ACTION_SEVERITY (vs.foldl resolveStep a) ∧
    (vs.foldl resolveStep a = a ∨ ∃ v ∈ vs, v.action = vs.foldl resolveStep a) ∧
    ∀ v ∈ vs, ACTION_SEVERITY v.action ≤ ACTION_SEVERITY (vs.foldl resolveStep a) := by
  induction vs with
  | nil => intro a; simp
  | cons v vs ih =>
    intro a
    simp only [List.foldl_cons]
    obtain ⟨h1, h2, h3⟩ := ih (resolveStep a v)
    have hs1 : ACTION_SEVERITY a ≤ ACTION_SEVERITY (resolveStep a v) := by
      unfold resolveStep
      split
      · omega
      · exact le_refl _
    have hs2 : resolveStep a v = a ∨ resolveStep a v = v.action := by
      unfold resolveStep
      split
      · exact Or.inr rfl
      · exact Or.inl rfl
    have hs3 : ACTION_SEVERITY v.action ≤ ACTION_SEVERITY (resolveStep a v) := by
      unfold resolveStep
      split
      · exact le_refl _
      · omega
    refine ⟨le_trans hs1 h1, ?_, ?_⟩
    · rcases h2 with h2 | ⟨w, hw, hwe⟩
      · rcases hs2 with hs2 | hs2
        · exact Or.inl (h2.trans hs2)
        · exact Or.inr ⟨v, List.mem_cons_self v vs, (h2.trans hs2).symm⟩
      · exact Or.inr ⟨w, List.mem_cons_of_mem v hw, hwe⟩
    · intro w hw
      rcases List.mem_cons.mp hw with hw | hw
      · subst hw
        exact le_trans hs3 h1
      · exact h3 w hw

/-- C9: `resolveAction` returns `warn` on the empty list, and on any list it
returns the maximum-severity action that occurs in the list (under the order
warn < block < shutdown given by `ACTION_SEVERITY`): the result dominates
every violation's action and is itself `warn` or one of those actions. -/
theorem resolveAction_spec :
    resolveAction [] = RuleAction.warn ∧
    ∀ vs : List Violation,
      (∀ v ∈ vs, ACTION_SEVERITY v.action ≤ ACTION_SEVERITY (resolveAction vs)) ∧
      (resolveAction vs = RuleAction.warn ∨ ∃ v ∈ vs, v.action = resolveAction vs) := by
  refine ⟨rfl, ?_⟩
  intro vs
  obtain ⟨_, h2, h3⟩ := foldl_resolve vs .warn
  exact ⟨h3, h2⟩

/-- Witness for C9 at a concrete two-element violation list containing a
`warn` and a `shutdown` violation. -/
theorem resolveAction_spec_witness :
    ACTION_SEVERITY
        (Violation.mk "a" RuleCategory.pii RuleAction.shutdown [] 0).action ≤
      ACTION_SEVERITY (resolveAction
        [Violation.mk "a" RuleCategory.pii RuleAction.shutdown [] 0,
         Violation.mk "b" RuleCategory.content RuleAction.warn [] 1]) :=
  (resolveAction_spec.2
      [Violation.mk "a" RuleCategory.pii RuleAction.shutdown [] 0,
       Violation.mk "b" RuleCategory.content RuleAction.warn [] 1]).1
    (Violation.mk "a" RuleCategory.pii RuleAction.shutdown [] 0) (by simp)

theorem stripNonDigits_idem (s : List Char) :
    stripNonDigits (stripNonDigits s) = stripNonDigits s := by
  unfold stripNonDigits
  rw [List.filter_filter]
  simp

/-- Flag-swap behaviour of parity under a shifted index. -/
theorem xor_parity_shift (b : Bool) (i : Nat) :
    xor b (decide ((i + 1) % 2 = 1)) = xor (!b) (decide (i % 2 = 1)) := by
  have h2 : i % 2 = 0 ∨ i % 2 = 1 := by omega
  rcases h2 with h | h
  · have h1 : (i + 1) % 2 = 1 := by omega
    rw [h, h1]
    simp
  · have h1 : (i + 1) % 2 = 0 := by omega
    rw [h, h1]
    simp

/-- The implementation loop `luhnSumAux` computes the position-indexed sum
with the doubling decided by the alternate flag xored with the index
parity. -/
theorem luhnSumAux_eq_rangeSum (l : List Char) : ∀ alternate : Bool,
    luhnSumAux l alternate =
      ((List.range l.length).map (fun r =>
        luhnTerm (xor alternate (decide (r % 2 = 1))) (l.getD r '0'))).sum := by
  induction l with
  | nil => intro alternate; rfl
  | cons c rest ih =>
    intro alternate
    rw [luhnSumAux, List.length_cons, List.range_succ_eq_map, List.map_cons,
      List.sum_cons, List.map_map]
    have hhead : luhnTerm (xor alternate (decide ((0 : Nat) % 2 = 1))) ((c :: rest).getD 0 '0')
        = luhnTerm alternate c := by
      norm_num
    have htail :
        ((List.range rest.length).map ((fun r =>
            luhnTerm (xor alternate (decide (r % 2 = 1))) ((c :: rest).getD r '0')) ∘
          (· + 1)))
          = (List.range rest.length).map (fun r =>
              luhnTerm (xor (!alternate) (decide (r % 2 = 1))) (rest.getD r '0')) := by
      apply List.map_congr_left
      intro r _
      simp only [Function.comp_apply, List.getD_cons_succ]
      rw [xor_parity_shift]
    rw [hhead, htail, ih (!alternate)]

/-- `luhnCheck` agrees with the specification's Luhn formula on any string
(the implementation re-strips non-digits, which is idempotent). -/
theorem luhnCheck_eq_spec (digits : List Char) :
    luhnCheck digits = true ↔ luhnSpecSum (stripNonDigits digits) % 10 = 0 := by
  unfold luhnCheck luhnSpecSum
  rw [luhnSumAux_eq_rangeSum]
  have hsum :
      ((List.range (stripNonDigits digits).reverse.length).map (fun r =>
        luhnTerm (xor false (decide (r % 2 = 1)))
          ((stripNonDigits digits).reverse.getD r '0'))).sum
      = ((List.range (stripNonDigits digits).length).map (fun r =>
          if r % 2 = 1 then luhnDouble (digitVal ((stripNonDigits digits).reverse.getD r '0'))
          else digitVal ((stripNonDigits digits).reverse.getD r '0'))).sum := by
    rw [List.length_reverse]
    congr 1
    apply List.map_congr_left
    intro r _
    simp [luhnTerm]
  rw [hsum]
  exact decide_eq_true_iff

/-! ### Claim theorem: credit-card detection (C3) -/

/-- For a credit-card rule, the `scanPiiRule` regex loop is exactly the
bare match loop followed by the credit-card post-filter. -/
theorem scanPiiLoop_creditCard (re : JsRegex) (rule : ScanRule) (content : List Char)
    (ht : rule.type = some PiiType.creditCard) : ∀ fuel lastIndex,
    scanPiiLoop re rule content fuel lastIndex =
      (execLoop re content fuel lastIndex).map
        (fun ms => (ms.filter (fun p => creditCardKeep p.2)).map
          (fun p => mkViolation rule p.2 p.1)) := by
  intro fuel
  induction fuel with
  | zero => intro lastIndex; rfl
  | succ fuel ih =>
    intro lastIndex
    rw [scanPiiLoop, execLoop]
    cases hexec : re.exec content lastIndex with
    | none => rfl
    | some pm =>
      obtain ⟨idx, m⟩ := pm
      simp only
      cases hkeep : creditCardKeep m with
      | false =>
        rw [if_pos ⟨ht, rfl⟩, ih (idx + m.length), Option.map_map]
        congr 1
        funext ms
        simp [hkeep]
      | true =>
        rw [if_neg (by simp), if_neg (by simp [ht]), ih (idx + m.length),
          Option.map_map, Option.map_map]
        congr 1
        funext ms
        simp [hkeep]

/-- Pattern-list version of the credit-card factorization. -/
theorem scanPiiPatterns_creditCard (rule : ScanRule) (content : List Char)
    (fuel : Nat) (ht : rule.type = some PiiType.creditCard) :
    ∀ pats : List JsRegex,
    scanPiiPatterns rule content fuel pats =
      (execLoops content fuel pats).map
        (fun ms => (ms.filter (fun p => creditCardKeep p.2)).map
          (fun p => mkViolation rule p.2 p.1)) := by
  intro pats
  induction pats with
  | nil => rfl
  | cons re rest ih =>
    rw [scanPiiPatterns, execLoops, scanPiiLoop_creditCard re rule content ht fuel 0]
    cases hexec : execLoop re content fuel 0 with
    | none => rfl
    | some ms =>
      simp only [Option.map_some]
      rw [ih]
      cases hrest : execLoops content fuel rest with
      | none => rfl
      | some more =>
        simp only [Option.map_some, Option.map_map]
        simp [List.filter_append]

/-- C3: for every enabled credit-card rule and abstract pattern table, the
violations reported by `scanPiiRule` are exactly the regex matches that
survive the credit-card post-filter, and that filter keeps a match iff
after stripping all non-digit characters it has between 13 and 19 digits
and passes the Luhn checksum in the spec's formulation (double every second
digit from the right, subtract 9 when the doubled digit exceeds 9, valid
iff the digit sum is a multiple of 10); in particular the digit string
4111111111111111 is kept and 1234567890123456 is discarded. -/
theorem scanPiiRule_creditCard_spec (piiPatterns : PiiType → List JsRegex)
    (rule : ScanRule) (content : List Char) (fuel : Nat)
    (ht : rule.type = some PiiType.creditCard) :
    scanPiiRule piiPatterns rule content fuel =
      (execLoops content fuel (piiPatterns PiiType.creditCard)).map
        (fun ms => (ms.filter (fun p => creditCardKeep p.2)).map
          (fun p => mkViolation rule p.2 p.1)) ∧
    (∀ m : List Char, creditCardKeep m = true ↔
      (13 ≤ (stripNonDigits m).length ∧ (stripNonDigits m).length ≤ 19 ∧
        luhnSpecSum (stripNonDigits m) % 10 = 0)) ∧
    creditCardKeep "4111111111111111".toList = true ∧
    creditCardKeep "1234567890123456".toList = false := by
  refine ⟨?_, ?_, by decide, by decide⟩
  · rw [scanPiiRule, ht]
    exact scanPiiPatterns_creditCard rule content fuel ht _
  · intro m
    unfold creditCardKeep
    simp only [Bool.not_or, Bool.and_eq_true, Bool.not_eq_true', decide_eq_false_iff_not,
      Bool.not_not, Bool.not_eq_false']
    rw [luhnCheck_eq_spec, stripNonDigits_idem]
    constructor
    · rintro ⟨⟨h1, h2⟩, h3⟩
      exact ⟨by omega, by omega, h3⟩
    · rintro ⟨h1, h2, h3⟩
      exact ⟨⟨by omega, by omega⟩, h3⟩

/-- Witness for C3 at a concrete credit-card rule, empty pattern table,
empty content and fuel 1. -/
theorem scanPiiRule_creditCard_spec_witness :
    creditCardKeep "4111111111111111".toList = true :=
  (scanPiiRule_creditCard_spec noPiiPatterns
      { id := "pii-credit-card", category := RuleCategory.pii, enabled := true,
        action := RuleAction.shutdown, type := some PiiType.creditCard }
      [] 1 rfl).2.2.1

/-! ### Claim theorems: scan termination (C5) -/

/-- `isSome` is invariant under `Option.map`. -/
theorem isSome_option_map {A B : Type} (f : A -> B) (o : Option A) :
    (o.map f).isSome = o.isSome := by
  cases o <;> rfl

/-- A successful `indexOf` search returns a position at or after the start
with the occurrence inside the haystack. -/
theorem indexOfAux_spec (hay needle : List Char) : ∀ i p,
    indexOfAux hay needle i = some p → i ≤ p ∧ p + needle.length ≤ hay.length := by
  intro i
  induction i using indexOfAux.induct hay needle with
  | case1 i h hpre =>
    intro p hp
    rw [indexOfAux, dif_pos h, if_pos hpre] at hp
    cases hp
    omega
  | case2 i h hpre ih =>
    intro p hp
    rw [indexOfAux, dif_pos h, if_neg hpre] at hp
    have := ih p hp
    omega
  | case3 i h =>
    intro p hp
    rw [indexOfAux, dif_neg h] at hp
    cases hp

theorem indexOfFrom_spec (hay needle : List Char) (pos p : Nat)
    (hpos : pos ≤ hay.length) (hp : indexOfFrom hay needle pos = some p) :
    pos ≤ p ∧ p + needle.length ≤ hay.length := by
  unfold indexOfFrom at hp
  have := indexOfAux_spec hay needle (min pos hay.length) p hp
  omega

/-- The keyword loop never finishes on the empty keyword: `indexOf`
returns the current position and the loop advances by zero. -/
theorem keywordLoop_empty (rule : ScanRule) (fuel : Nat) :
    keywordLoop rule [] [] [] [] fuel 0 = none := by
  induction fuel with
  | zero => rfl
  | succ fuel ih =>
    rw [keywordLoop]
    have h : indexOfFrom ([] : List Char) [] 0 = some 0 := by
      rw [indexOfFrom]
      rw [indexOfAux]
      simp
    rw [h]
    simp [ih]

/-- C5 counterexample: on empty content, a single enabled content rule
whose keyword list contains the empty keyword makes `scanContent` loop
forever (no fuel suffices), refuting termination for every rule list. -/
theorem scanContent_diverges_on_empty_keyword :
    ¬ scanTerminatesOn noPiiPatterns [emptyKeywordRule] [] := by
  rintro ⟨fuel, h⟩
  have hnone : scanContent noPiiPatterns [] fuel [emptyKeywordRule] = none := by
    simp only [scanContent, scanContentRule, scanPatterns, scanKeywords,
      emptyKeywordRule, toLowerList, List.map_nil]
    rw [keywordLoop_empty _ fuel]
    simp
  rw [hnone] at h
  simp at h

/-- Fuel `content.length + 1 - lastIndex` suffices for the bare regex loop
when the regex is progressive. -/
theorem execLoop_isSome (re : JsRegex) (content : List Char)
    (hprog : RegexProgressive re content) : ∀ fuel lastIndex,
    lastIndex ≤ content.length → content.length + 1 - lastIndex ≤ fuel →
    (execLoop re content fuel lastIndex).isSome = true := by
  intro fuel
  induction fuel with
  | zero => intro li h1 h2; omega
  | succ fuel ih =>
    intro li h1 h2
    rw [execLoop]
    cases hexec : re.exec content li with
    | none => rfl
    | some pm =>
      obtain ⟨idx, m⟩ := pm
      obtain ⟨ha, hb, hc⟩ := hprog li idx m hexec
      simp only [isSome_option_map]
      exact ih (idx + m.length) (by omega) (by omega)

/-- The PII loop finishes exactly when the bare match loop finishes (they
recurse identically; the filters only decide whether to push). -/
theorem scanPiiLoop_isSome_iff (re : JsRegex) (rule : ScanRule) (content : List Char) :
    ∀ fuel lastIndex,
    (scanPiiLoop re rule content fuel lastIndex).isSome
      = (execLoop re content fuel lastIndex).isSome := by
  intro fuel
  induction fuel with
  | zero => intro li; rfl
  | succ fuel ih =>
    intro li
    rw [scanPiiLoop, execLoop]
    cases hexec : re.exec content li with
    | none => rfl
    | some pm =>
      obtain ⟨idx, m⟩ := pm
      simp only [isSome_option_map]
      split_ifs with h1 h2
      · exact ih (idx + m.length)
      · exact ih (idx + m.length)
      · simp only [isSome_option_map]
        exact ih (idx + m.length)

/-- The content-rule pattern loop finishes exactly when the bare match loop
finishes. -/
theorem contentPatternLoop_isSome_iff (re : JsRegex) (rule : ScanRule)
    (content : List Char) : ∀ fuel lastIndex,
    (contentPatternLoop re rule content fuel lastIndex).isSome
      = (execLoop re content fuel lastIndex).isSome := by
  intro fuel
  induction fuel with
  | zero => intro li; rfl
  | succ fuel ih =>
    intro li
    rw [contentPatternLoop, execLoop]
    cases hexec : re.exec content li with
    | none => rfl
    | some pm =>
      obtain ⟨idx, m⟩ := pm
      simp only [isSome_option_map]
      exact ih (idx + m.length)

/-- Fuel `lowerContent.length + 1 - pos` suffices for the keyword loop when
the keyword is non-empty. -/
theorem keywordLoop_isSome (rule : ScanRule)
    (content lowerContent keyword lowerKw : List Char)
    (hk : keyword ≠ []) (hlen : lowerKw.length = keyword.length) :
    ∀ fuel pos, pos ≤ lowerContent.length →
    lowerContent.length + 1 - pos ≤ fuel →
    (keywordLoop rule content lowerContent keyword lowerKw fuel pos).isSome = true := by
  intro fuel
  induction fuel with
  | zero => intro pos h1 h2; omega
  | succ fuel ih =>
    intro pos h1 h2
    rw [keywordLoop]
    cases hidx : indexOfFrom lowerContent lowerKw pos with
    | none => rfl
    | some p =>
      obtain ⟨hge, hin⟩ := indexOfFrom_spec lowerContent lowerKw pos p h1 hidx
      have hkpos : 0 < keyword.length := List.length_pos.mpr hk
      simp only [isSome_option_map]
      exact ih (p + keyword.length) (by omega) (by omega)

/-- Fuel `content.length + 1` suffices for the pattern list of a PII rule
when every pattern is progressive. -/
theorem scanPiiPatterns_isSome (rule : ScanRule) (content : List Char) :
    ∀ pats : List JsRegex, (∀ re ∈ pats, RegexProgressive re content) →
    (scanPiiPatterns rule content (content.length + 1) pats).isSome = true := by
  intro pats
  induction pats with
  | nil => intro _; rfl
  | cons re pres ihp =>
    intro hpp
    have hloop : (scanPiiLoop re rule content (content.length + 1) 0).isSome = true := by
      rw [scanPiiLoop_isSome_iff]
      exact execLoop_isSome re content (hpp re (List.mem_cons_self re pres))
        (content.length + 1) 0 (by omega) (by omega)
    rw [scanPiiPatterns]
    cases hv : scanPiiLoop re rule content (content.length + 1) 0 with
    | none => rw [hv] at hloop; simp at hloop
    | some vs =>
      have hrest := ihp (fun r hr => hpp r (List.mem_cons_of_mem re hr))
      cases hw : scanPiiPatterns rule content (content.length + 1) pres with
      | none => rw [hw] at hrest; simp at hrest
      | some ws => rfl

/-- Fuel `content.length + 1` suffices for the pattern list of a content
rule when every pattern is progressive. -/
theorem scanPatterns_isSome (rule : ScanRule) (content : List Char) :
    ∀ pats : List JsRegex, (∀ re ∈ pats, RegexProgressive re content) →
    (scanPatterns rule content (content.length + 1) pats).isSome = true := by
  intro pats
  induction pats with
  | nil => intro _; rfl
  | cons re pres ihp =>
    intro hpp
    have hloop : (contentPatternLoop re rule content (content.length + 1) 0).isSome
        = true := by
      rw [contentPatternLoop_isSome_iff]
      exact execLoop_isSome re content (hpp re (List.mem_cons_self re pres))
        (content.length + 1) 0 (by omega) (by omega)
    rw [scanPatterns]
    cases hv : contentPatternLoop re rule content (content.length + 1) 0 with
    | none => rw [hv] at hloop; simp at hloop
    | some vs =>
      have hrest := ihp (fun r hr => hpp r (List.mem_cons_of_mem re hr))
      cases hw : scanPatterns rule content (content.length + 1) pres with
      | none => rw [hw] at hrest; simp at hrest
      | some ws => rfl

/-- Fuel `content.length + 1` suffices for the keyword list of a content
rule when every keyword is non-empty. -/
theorem scanKeywords_isSome (rule : ScanRule) (content : List Char) :
    ∀ kws : List (List Char), (∀ kw ∈ kws, kw ≠ []) →
    (scanKeywords rule content (toLowerList content) (content.length + 1) kws).isSome
      = true := by
  intro kws
  induction kws with
  | nil => intro _; rfl
  | cons kw krest ihk =>
    intro hkk
    have hloop : (keywordLoop rule content (toLowerList content) kw (toLowerList kw)
        (content.length + 1) 0).isSome = true := by
      refine keywordLoop_isSome rule content (toLowerList content) kw (toLowerList kw)
        (hkk kw (List.mem_cons_self kw krest)) (by simp [toLowerList])
        (content.length + 1) 0 (by omega) ?_
      simp [toLowerList]
    rw [scanKeywords]
    cases hv : keywordLoop rule content (toLowerList content) kw (toLowerList kw)
        (content.length + 1) 0 with
    | none => rw [hv] at hloop; simp at hloop
    | some vs =>
      have hrest := ihk (fun k hkm => hkk k (List.mem_cons_of_mem kw hkm))
      cases hw : scanKeywords rule content (toLowerList content) (content.length + 1)
          krest with
      | none => rw [hw] at hrest; simp at hrest
      | some ws => rfl

/-- Fuel `content.length + 1` suffices for `scanContentRule` under the
progress conditions. -/
theorem scanContentRule_isSome (rule : ScanRule) (content : List Char)
    (hpats : ∀ re ∈ rule.patterns, RegexProgressive re content)
    (hkws : ∀ kw ∈ rule.keywords, kw ≠ []) :
    (scanContentRule rule content (content.length + 1)).isSome = true := by
  rw [scanContentRule]
  have hp1 := scanPatterns_isSome rule content rule.patterns hpats
  cases hv : scanPatterns rule content (content.length + 1) rule.patterns with
  | none => rw [hv] at hp1; simp at hp1
  | some vs =>
    have hk1 := scanKeywords_isSome rule content rule.keywords hkws
    cases hw : scanKeywords rule content (toLowerList content) (content.length + 1)
        rule.keywords with
    | none => rw [hw] at hk1; simp at hk1
    | some ws => rfl

/-- C5 (amended): `scanContent` does terminate — fuel `content.length + 1`
suffices, returning a (possibly empty) violation list — provided every
regular expression (in the PII table and in the rules) is progressive
(cannot match the empty string) and every keyword is non-empty; the
unamended claim fails because a zero-length regex match or an empty keyword
makes the loop run forever, as the counterexample shows. -/
theorem scanContent_terminates (piiPatterns : PiiType → List JsRegex)
    (rules : List ScanRule) (content : List Char)
    (hpii : ∀ t : PiiType, ∀ re ∈ piiPatterns t, RegexProgressive re content)
    (hpat : ∀ rule ∈ rules, ∀ re ∈ rule.patterns, RegexProgressive re content)
    (hkw : ∀ rule ∈ rules, ∀ kw ∈ rule.keywords, kw ≠ []) :
    (scanContent piiPatterns content (content.length + 1) rules).isSome = true := by
  induction rules with
  | nil => rfl
  | cons rule rest ih =>
    have ihrest := ih (fun r hr => hpat r (List.mem_cons_of_mem rule hr))
      (fun r hr => hkw r (List.mem_cons_of_mem rule hr))
    rw [scanContent]
    by_cases hen : rule.enabled = false
    · rw [if_pos hen]
      exact ihrest
    · rw [if_neg hen]
      have hsome : (if rule.category = RuleCategory.pii then
          scanPiiRule piiPatterns rule content (content.length + 1)
        else scanContentRule rule content (content.length + 1)).isSome = true := by
        split
        · rw [scanPiiRule]
          cases htype : rule.type with
          | none => rfl
          | some t => exact scanPiiPatterns_isSome rule content (piiPatterns t) (hpii t)
        · exact scanContentRule_isSome rule content
            (hpat rule (List.mem_cons_self rule rest))
            (hkw rule (List.mem_cons_self rule rest))
      cases hv : (if rule.category = RuleCategory.pii then
          scanPiiRule piiPatterns rule content (content.length + 1)
        else scanContentRule rule content (content.length + 1)) with
      | none => rw [hv] at hsome; simp at hsome
      | some vs =>
        cases hw : scanContent piiPatterns content (content.length + 1) rest with
        | none => rw [hw] at ihrest; simp at ihrest
        | some ws => rfl

/-- Witness for C5 (amended): a one-character content scanned with one
enabled keyword rule terminates with fuel 2. -/
theorem scanContent_terminates_witness :
    (scanContent noPiiPatterns ['a'] (List.length ['a'] + 1)
      [sampleKeywordRule]).isSome = true :=
  scanContent_terminates noPiiPatterns [sampleKeywordRule] ['a']
    (fun t re hre => by simp [noPiiPatterns] at hre)
    (fun rule hr re hre => by
      simp only [List.mem_singleton] at hr
      subst hr
      simp [sampleKeywordRule] at hre)
    (fun rule hr kw hkm => by
      simp only [List.mem_singleton] at hr
      subst hr
      simp only [sampleKeywordRule, List.mem_singleton] at hkm
      subst hkm
      simp)

/-! ### Claim theorems: JSONL round trip (C8) -/

/-- `split` never returns an empty list of segments. -/
theorem splitOnNl_ne_nil (s : List Char) : splitOnNl s ≠ [] := by
  cases s with
  | nil => simp [splitOnNl]
  | cons c rest =>
    rw [splitOnNl]
    cases splitOnNl rest with
    | nil => simp
    | cons line more =>
      by_cases hc : c = '\n' <;> simp [hc]

/-- Splitting a text that starts with a newline-free line followed by a
newline yields that line and then the split of the remainder. -/
theorem splitOnNl_append (l rest : List Char) (hl : '\n' ∉ l) :
    splitOnNl (l ++ '\n' :: rest) = l :: splitOnNl rest := by
  induction l with
  | nil =>
    rw [List.nil_append, splitOnNl]
    cases hs : splitOnNl rest with
    | nil => exact absurd hs (splitOnNl_ne_nil rest)
    | cons line more => simp
  | cons c cs ih =>
    have hc : c ≠ '\n' := fun he => hl (he ▸ List.mem_cons_self c cs)
    have hcs : '\n' ∉ cs := fun hm => hl (List.mem_cons_of_mem c hm)
    rw [List.cons_append, splitOnNl, ih hcs]
    simp [hc]

/-- Joining newline-free lines and appending a final newline splits back
into exactly those lines plus one empty segment. -/
theorem splitOnNl_joinNl (lines : List (List Char)) (hne : lines ≠ [])
    (hnl : ∀ l ∈ lines, '\n' ∉ l) :
    splitOnNl (joinNl lines ++ ['\n']) = lines ++ [[]] := by
  induction lines with
  | nil => exact absurd rfl hne
  | cons l ls ih =>
    cases ls with
    | nil =>
      rw [joinNl, splitOnNl_append l [] (hnl l (List.mem_cons_self l []))]
      rfl
    | cons l2 ls2 =>
      have hih := ih (List.cons_ne_nil l2 ls2)
        (fun x hx => hnl x (List.mem_cons_of_mem l hx))
      rw [joinNl, List.append_assoc, List.cons_append,
        splitOnNl_append l ((joinNl (l2 :: ls2)) ++ ['\n'])
          (hnl l (List.mem_cons_self l (l2 :: ls2))), hih]
      · rfl
      · exact fun h => List.noConfusion h

/-- C8 counterexample: with a parser that rejects the line (as `JSON.parse`
rejects `x`), the unparseable line consisting of a space and `x` is stored
trimmed (`x`, not the original line) and the round trip emits `x` followed
by a newline — not byte-identical to the input line; moreover a
whitespace-only line is dropped entirely rather than kept. -/
theorem parseJsonl_not_verbatim :
    parseJsonl (fun _ => (none : Option Unit)) [' ', 'x']
        = [JsonlEntry.raw ['x']] ∧
    serializeJsonl (fun _ => [])
        (parseJsonl (fun _ => (none : Option Unit)) [' ', 'x']) = ['x', '\n'] ∧
    serializeJsonl (fun _ => [])
        (parseJsonl (fun _ => (none : Option Unit)) [' ', 'x']) ≠ [' ', 'x'] ∧
    parseJsonl (fun _ => (none : Option Unit)) [' '] = [] := by
  refine ⟨rfl, rfl, ?_, rfl⟩
  decide

/-- C8 (amended): every line whose trimmed text is non-empty and fails to
parse is kept by `parseJsonl` as a passthrough entry holding the trimmed
text, and `serializeJsonl` emits every passthrough entry's stored text
verbatim as its own output line (the serialized output splits into exactly
the entry lines plus a final empty segment); so the round trip preserves
unparseable entries up to trimming, while whitespace-only lines are
dropped. -/
theorem parseJsonl_passthrough {α : Type} (parse : List Char → Option α)
    (ser : α → List Char) (text line : List Char)
    (entries : List (JsonlEntry α)) :
    (line ∈ splitOnNl text → trimWs line ≠ [] → parse (trimWs line) = none →
      JsonlEntry.raw (trimWs line) ∈ parseJsonl parse text) ∧
    (entries ≠ [] → (∀ e ∈ entries, '\n' ∉ entryToLine ser e) →
      splitOnNl (serializeJsonl ser entries)
        = entries.map (entryToLine ser) ++ [[]]) ∧
    (∀ r, JsonlEntry.raw r ∈ entries →
      (∀ e ∈ entries, '\n' ∉ entryToLine ser e) →
      r ∈ splitOnNl (serializeJsonl ser entries)) := by
  refine ⟨?_, ?_, ?_⟩
  · intro hline hne hparse
    rw [parseJsonl, List.mem_filterMap]
    refine ⟨line, hline, ?_⟩
    simp only [if_neg hne, hparse]
  · intro hne hnl
    rw [serializeJsonl]
    exact splitOnNl_joinNl (entries.map (entryToLine ser))
      (by simpa using hne)
      (by intro l hl
          obtain ⟨e, he, hel⟩ := List.mem_map.mp hl
          exact hel ▸ hnl e he)
  · intro r hr hnl
    have hne : entries ≠ [] := by
      intro he
      rw [he] at hr
      cases hr
    rw [serializeJsonl, splitOnNl_joinNl (entries.map (entryToLine ser))
      (by simpa using hne)
      (by intro l hl
          obtain ⟨e, he, hel⟩ := List.mem_map.mp hl
          exact hel ▸ hnl e he)]
    have : r ∈ entries.map (entryToLine ser) :=
      List.mem_map.mpr ⟨JsonlEntry.raw r, hr, rfl⟩
    exact List.mem_append.mpr (Or.inl this)

/-- Witness for C8 (amended) at the one-line text `x` with an
always-failing parser. -/
theorem parseJsonl_passthrough_witness :
    JsonlEntry.raw (trimWs ['x'])
      ∈ parseJsonl (fun _ => (none : Option Unit)) ['x'] :=
  (parseJsonl_passthrough (fun _ => (none : Option Unit)) (fun _ => [])
      ['x'] ['x'] []).1 (by decide) (by decide) rfl

/-! ### Claim theorems: deterministic aggregate hash (C4) -/

/-- SHA-256 sanity check against the standard test vector for the empty
message. -/
theorem sha256_empty_vector :
    sha256Hex (strBytes "")
      = "e3b0c44298fc1c149afbf4c8996fb92427ae41e4649b934ca495991b7852b855".toList := by
  decide

/-- SHA-256 sanity check against the standard test vector for `abc`. -/
theorem sha256_abc_vector :
    sha256Hex (strBytes "abc")
      = "ba7816bf8f01cfea414140de5dae2223b00361a396177a9cb410ff61f20015ad".toList := by
  decide

/-- A path-key-sorted list with no duplicate path keys is strictly
sorted. -/
theorem pairwise_lt_of_le_nodup :
    ∀ l : List (String × String), l.Pairwise pathKeyLe →
    (l.map Prod.fst).Nodup → l.Pairwise pathKeyLt := by
  intro l
  induction l with
  | nil => intro _ _; exact List.Pairwise.nil
  | cons x xs ih =>
    intro hle hnd
    rw [List.pairwise_cons] at hle ⊢
    rw [List.map_cons, List.nodup_cons] at hnd
    refine ⟨?_, ih hle.2 hnd.2⟩
    intro y hy
    have hxy := hle.1 y hy
    have hne : x.1 ≠ y.1 := fun he => hnd.1 (he ▸ List.mem_map_of_mem Prod.fst hy)
    exact lt_of_le_of_ne hxy hne

/-- Sorting by path gives the same list on any two permutations of a
snapshot with unique path keys: the sorted order is unique. -/
theorem sortByPath_eq_of_perm (files1 files2 : List (String × String))
    (hperm : files1.Perm files2) (hnodup : (files1.map Prod.fst).Nodup) :
    sortByPath files1 = sortByPath files2 := by
  haveI : IsTotal (String × String) pathKeyLe := ⟨fun a b => le_total a.1 b.1⟩
  haveI : IsTrans (String × String) pathKeyLe :=
    ⟨fun a b c hab hbc => le_trans hab hbc⟩
  haveI : IsAntisymm (String × String) pathKeyLt :=
    ⟨fun a b hab hba => (lt_asymm hab hba).elim⟩
  have hs1 : (sortByPath files1).Pairwise pathKeyLe :=
    List.sorted_insertionSort pathKeyLe files1
  have hs2 : (sortByPath files2).Pairwise pathKeyLe :=
    List.sorted_insertionSort pathKeyLe files2
  have hp1 : (sortByPath files1).Perm files1 := List.perm_insertionSort pathKeyLe files1
  have hp2 : (sortByPath files2).Perm files2 := List.perm_insertionSort pathKeyLe files2
  have hp : (sortByPath files1).Perm (sortByPath files2) :=
    hp1.trans (hperm.trans hp2.symm)
  have hnd1 : ((sortByPath files1).map Prod.fst).Nodup :=
    ((hp1.map Prod.fst).nodup_iff).mpr hnodup
  have hnd2 : ((sortByPath files2).map Prod.fst).Nodup :=
    ((hp.map Prod.fst).nodup_iff).mp hnd1
  exact List.eq_of_perm_of_sorted hp
    (pairwise_lt_of_le_nodup _ hs1 hnd1)
    (pairwise_lt_of_le_nodup _ hs2 hnd2)

/-- C4 counterexample: on the one-file snapshot `a ↦ b` the implementation
hashes `"b  a"` (lines joined by newline, no trailing newline) while the
claim's formula hashes `"b  a\n"` (every line newline-terminated); the two
SHA-256 digests differ. -/
theorem hashDirectory_ne_claimAggregate :
    hashDirectorySha256 [("a", "b")] ≠ claimAggregate [("a", "b")] := by
  decide

/-- C4 (amended): the aggregate hash equals the SHA-256 of the sorted
`"<fileHash>  <relativePath>"` lines joined by `"\n"` — with no trailing
newline, unlike the claim's per-line-terminated concatenation — and is
therefore a function only of the path-to-hash map: it is invariant under
any permutation of the snapshot entries (hence under on-disk creation or
traversal order), for snapshots with unique relative paths. -/
theorem hashDirectorySha256_deterministic (files1 files2 : List (String × String))
    (hperm : files1.Perm files2) (hnodup : (files1.map Prod.fst).Nodup) :
    hashDirectorySha256 files1
        = sha256Hex (strBytes (String.intercalate "\n"
            ((sortByPath files1).map dirLine))) ∧
    hashDirectorySha256 files1 = hashDirectorySha256 files2 := by
  refine ⟨rfl, ?_⟩
  rw [hashDirectorySha256, hashDirectorySha256,
    sortByPath_eq_of_perm files1 files2 hperm hnodup]

/-- Witness for C4 (amended) at a concrete two-file snapshot and its
reversal. -/
theorem hashDirectorySha256_deterministic_witness :
    hashDirectorySha256 [("a", "x"), ("b", "y")]
      = hashDirectorySha256 [("b", "y"), ("a", "x")] :=
  (hashDirectorySha256_deterministic [("a", "x"), ("b", "y")]
    [("b", "y"), ("a", "x")] (List.Perm.swap ("b", "y") ("a", "x") [])
    (by decide)).2

/-! ### Claim theorems: quarantine restore (C1) -/

/-- The `filter`-then-`find` of the source equals a single `find` with the
conjoined predicate: the first ACTIVE matching record in ledger order. -/
theorem find_filter_fusion (f g : QuarantineRecord → Bool) :
    ∀ db : List QuarantineRecord,
    (db.filter f).find? g = db.find? (fun r => f r && g r) := by
  intro db
  induction db with
  | nil => rfl
  | cons r rest ih =>
    cases hf : f r <;> cases hg : g r <;>
      simp [List.filter_cons, List.find?, hf, hg, ih]

/-- `find?` returns the head of the first satisfying suffix. -/
theorem find_first_of_split (p : QuarantineRecord → Bool) :
    ∀ (as : List QuarantineRecord) (r : QuarantineRecord)
      (bs : List QuarantineRecord), (∀ a ∈ as, p a = false) → p r = true →
    (as ++ r :: bs).find? p = some r := by
  intro as
  induction as with
  | nil =>
    intro r bs _ hr
    simp [List.find?, hr]
  | cons a as ih =>
    intro r bs hfalse hr
    have ha : p a = false := hfalse a (List.mem_cons_self a as)
    rw [List.cons_append, List.find?]
    rw [ha]
    exact ih r bs (fun x hx => hfalse x (List.mem_cons_of_mem a hx)) hr

/-- `markFirst` updates exactly the head of the first satisfying suffix. -/
theorem markFirst_of_split (p : QuarantineRecord → Bool) (now : String) :
    ∀ (as : List QuarantineRecord) (r : QuarantineRecord)
      (bs : List QuarantineRecord), (∀ a ∈ as, p a = false) → p r = true →
    markFirst p now (as ++ r :: bs) = as ++ setRestoredAt r now :: bs := by
  intro as
  induction as with
  | nil =>
    intro r bs _ hr
    simp [markFirst, hr]
  | cons a as ih =>
    intro r bs hfalse hr
    have ha : p a = false := hfalse a (List.mem_cons_self a as)
    rw [List.cons_append, markFirst, ha]
    simp only [Bool.false_eq_true, if_false, List.cons_append]
    rw [ih r bs (fun x hx => hfalse x (List.mem_cons_of_mem a hx)) hr]

/-- C1 counterexample: on a ledger holding two active records for the skill
`foo` — `recA` created January 1st, `recB` created February 1st (their timestamps share a
prefix and differ first at the month digit, so A is lexicographically
earlier) — restoring by the name `foo` selects `recA`, the FIRST (oldest)
matching active record in ledger order, not the most recently created one
(`recB`). -/
theorem restore_selects_first_not_most_recent :
    ((restoreQuarantinedSkill [recA, recB] (fun _ => none) "foo"
        "2024-03-01T00:00:00.000Z").1.record.map QuarantineRecord.id)
      = some "id-a" ∧
    lastMatchingActive [recA, recB] "foo" = some recB ∧
    recB.id = "id-b" ∧
    recA.timestamp.toList.take 6 = recB.timestamp.toList.take 6 ∧
    (recA.timestamp.toList.getD 6 ' ').toNat < (recB.timestamp.toList.getD 6 ' ').toNat := by
  refine ⟨rfl, by decide, rfl, by decide, by decide⟩

/-- C1 (amended): when the ledger splits as `as ++ r :: bs` where `r` is
matching and active and everything before it is not, `restoreQuarantinedSkill`
selects `r` — the EARLIEST-created (first in ledger order) matching active
record — moves the item from its quarantined path back to its original
path, sets its `restoredAt`, and persists the ledger with exactly that
record updated. -/
theorem restoreQuarantinedSkill_spec (files : FsMap) (identifier now : String)
    (as bs : List QuarantineRecord) (r : QuarantineRecord)
    (hfirst : ∀ a ∈ as, (isActive a && recordMatches identifier a) = false)
    (hact : isActive r = true) (hmatch : recordMatches identifier r = true) :
    (restoreQuarantinedSkill (as ++ r :: bs) files identifier now).1.restored = true ∧
    (restoreQuarantinedSkill (as ++ r :: bs) files identifier now).1.record
        = some (setRestoredAt r now) ∧
    (restoreQuarantinedSkill (as ++ r :: bs) files identifier now).2.1
        = as ++ setRestoredAt r now :: bs ∧
    (restoreQuarantinedSkill (as ++ r :: bs) files identifier now).2.2 r.originalPath
        = files r.quarantinedPath ∧
    (∀ p, p ≠ r.originalPath → p ≠ r.quarantinedPath →
      (restoreQuarantinedSkill (as ++ r :: bs) files identifier now).2.2 p
        = files p) := by
  have hsel : (((as ++ r :: bs).filter (fun x => isActive x)).find?
      (fun x => recordMatches identifier x)) = some r := by
    rw [find_filter_fusion]
    exact find_first_of_split _ as r bs hfirst (by simp [hact, hmatch])
  have hmark := markFirst_of_split (fun x => isActive x && recordMatches identifier x)
    now as r bs hfirst (by simp [hact, hmatch])
  refine ⟨?_, ?_, ?_, ?_, ?_⟩
  · simp only [restoreQuarantinedSkill, hsel]
  · simp only [restoreQuarantinedSkill, hsel]
  · simp only [restoreQuarantinedSkill, hsel]
    exact hmark
  · simp only [restoreQuarantinedSkill, hsel, renameFs]
    simp
  · intro p hpo hpq
    simp only [restoreQuarantinedSkill, hsel, renameFs]
    simp [hpo, hpq]

/-- Witness for C1 (amended): restoring `foo` on the ledger `[recA, recB]`
reports success. -/
theorem restoreQuarantinedSkill_spec_witness :
    (restoreQuarantinedSkill ([] ++ recA :: [recB])
        (fun p => if p = "/q/2024-01-01-foo-aaaaaaaa" then some "content" else none)
        "foo" "2024-03-01T00:00:00.000Z").1.restored = true :=
  (restoreQuarantinedSkill_spec
    (fun p => if p = "/q/2024-01-01-foo-aaaaaaaa" then some "content" else none)
    "foo" "2024-03-01T00:00:00.000Z" [] [recB] recA
    (by intro a ha; cases ha) (by decide) (by decide)).1

/-! ### Claim theorems: symlink-escape protection (C2) -/

/-- Every path contributed by one entry-loop step is a good file, provided
the recursive calls only produce good files when invoked under the root. -/
theorem lfrStep_good (fs : Fsys) (root dir : FsPath)
    (recurse : FsPath → List FsPath → List FsPath × List FsPath)
    (hrec : ∀ p s, root <+: p → ∀ q ∈ (recurse p s).1, GoodFile fs root q)
    (hdir : root <+: dir) (seen : List FsPath) (e : String) :
    ∀ q ∈ (lfrStep recurse fs dir root seen e).1, GoodFile fs root q := by
  intro q hq
  have hpre : root <+: dir ++ [e] := hdir.trans (List.prefix_append dir [e])
  cases hl : fs.lstat (dir ++ [e]) with
  | none => simp [lfrStep, hl] at hq
  | some node =>
    cases node with
    | dir entries =>
      simp only [lfrStep, hl] at hq
      exact hrec (dir ++ [e]) seen hpre q hq
    | file size =>
      by_cases hsz : size ≤ MAX_HASHABLE_SIZE
      · simp [lfrStep, hl, hsz] at hq
        subst hq
        exact ⟨hpre, fun hsym => absurd (hl.symm.trans hsym) (by simp)⟩
      · simp [lfrStep, hl, hsz] at hq
    | symlink =>
      cases hr : fs.realpath (dir ++ [e]) with
      | none => simp [lfrStep, hl, hr] at hq
      | some resolved =>
        by_cases hin : inRootB resolved root = true
        · cases hs : fs.statF (dir ++ [e]) with
          | none => simp [lfrStep, hl, hr, hin, hs] at hq
          | some tnode =>
            cases tnode with
            | file size =>
              by_cases hsz : size ≤ MAX_HASHABLE_SIZE
              · simp [lfrStep, hl, hr, hin, hs, hsz] at hq
                subst hq
                exact ⟨hpre, fun _ => ⟨resolved, hr, hin⟩⟩
              · simp [lfrStep, hl, hr, hin, hs, hsz] at hq
            | dir entries =>
              simp only [lfrStep, hl, hr, hin, if_true] at hq
              exact hrec resolved seen (List.isPrefixOf_iff_prefix.mp hin) q
                (by simpa [hs] using hq)
            | symlink => simp [lfrStep, hl, hr, hin, hs] at hq
            | other => simp [lfrStep, hl, hr, hin, hs] at hq
        · simp [lfrStep, hl, hr, hin] at hq
    | other => simp [lfrStep, hl] at hq

/-- Every path produced by the entry loop is a good file. -/
theorem lfrGo_good (fs : Fsys) (root dir : FsPath)
    (recurse : FsPath → List FsPath → List FsPath × List FsPath)
    (hrec : ∀ p s, root <+: p → ∀ q ∈ (recurse p s).1, GoodFile fs root q)
    (hdir : root <+: dir) :
    ∀ (entries : List String) (seen : List FsPath),
    ∀ q ∈ (lfrGo recurse fs dir root entries seen).1, GoodFile fs root q := by
  intro entries
  induction entries with
  | nil => intro seen q hq; cases hq
  | cons e rest ih =>
    intro seen q hq
    rw [lfrGo] at hq
    rcases List.mem_append.mp hq with hq | hq
    · exact lfrStep_good fs root dir recurse hrec hdir seen e q hq
    · exact ih _ q hq

/-- Every path returned by the traversal started under the root is a good
file: it lies under the root and, if it is a symlink, its real target
resolves inside the root. -/
theorem listFilesRecursive_good (fs : Fsys) (root : FsPath) :
    ∀ (fuel : Nat) (dir : FsPath) (seen : List FsPath), root <+: dir →
    ∀ q ∈ (listFilesRecursive fs fuel dir root seen).1, GoodFile fs root q := by
  intro fuel
  induction fuel with
  | zero => intro dir seen _ q hq; cases hq
  | succ fuel ih =>
    intro dir seen hdir q hq
    cases hr : fs.realpath dir with
    | none => simp [listFilesRecursive, hr] at hq
    | some resolvedDir =>
      by_cases hv : resolvedDir ∈ seen
      · simp [listFilesRecursive, hr, hv] at hq
      · cases hd : fs.readdir dir with
        | none => simp [listFilesRecursive, hr, hv, hd] at hq
        | some entries =>
          have heq : (listFilesRecursive fs (fuel + 1) dir root seen).1
              = (lfrGo (fun p s => listFilesRecursive fs fuel p root s) fs dir root
                  entries (resolvedDir :: seen)).1 := by
            simp [listFilesRecursive, hr, hv, hd]
          rw [heq] at hq
          exact lfrGo_good fs root dir _ (fun p s hp => ih p s hp) hdir entries
            (resolvedDir :: seen) q hq

/-- A symlink entry whose real target is a within-root file under the size
cap is contributed by the entry loop (membership survives the rest of the
loop). -/
theorem lfrGo_mem_symlink (fs : Fsys) (root dir : FsPath)
    (recurse : FsPath → List FsPath → List FsPath × List FsPath)
    (e : String) (resolved : FsPath) (size : Nat)
    (hl : fs.lstat (dir ++ [e]) = some FsNode.symlink)
    (hr : fs.realpath (dir ++ [e]) = some resolved)
    (hin : inRootB resolved root = true)
    (hs : fs.statF (dir ++ [e]) = some (FsNode.file size))
    (hsz : size ≤ MAX_HASHABLE_SIZE) :
    ∀ (entries : List String) (seen : List FsPath), e ∈ entries →
    dir ++ [e] ∈ (lfrGo recurse fs dir root entries seen).1 := by
  intro entries
  induction entries with
  | nil => intro seen he; cases he
  | cons e2 rest ih =>
    intro seen he
    rw [lfrGo]
    rcases List.mem_cons.mp he with rfl | he
    · apply List.mem_append.mpr
      left
      simp [lfrStep, hl, hr, hin, hs, hsz]
    · exact List.mem_append.mpr (Or.inr (ih _ he))

/-- Paths under the root are recovered from their relative form. -/
theorem relTo_spec (root p : FsPath) (h : root <+: p) :
    root ++ relTo root p = p := by
  obtain ⟨t, ht⟩ := h
  rw [relTo, ← ht, List.drop_left]

/-- C2: for every (abstract) filesystem and fuel, the traversal under
`root` never returns a symbolic link whose real target resolves outside the
root (per the code's prefix-or-equality check `inRootB`); consequently the
snapshot map contains no entry for such a link — it is skipped without any
error, the model being total — while a symlink entry whose real target is a
within-root file (under the size cap) is followed and included. -/
theorem snapshot_skips_escaping_symlinks (fs : Fsys) (fuel : Nat) (root : FsPath) :
    (∀ p rp, p ∈ (listFilesRecursive fs fuel root root []).1 →
      fs.lstat p = some FsNode.symlink → fs.realpath p = some rp →
      inRootB rp root = true) ∧
    (∀ p rp, fs.lstat p = some FsNode.symlink → fs.realpath p = some rp →
      inRootB rp root = false → root <+: p →
      relTo root p ∉ (snapshotDirectoryHashes fs fuel root).map Prod.fst) ∧
    (∀ (fuel2 : Nat) (dir rd : FsPath) (seen : List FsPath) (entries : List String)
      (e : String) (resolved : FsPath) (size : Nat),
      fs.realpath dir = some rd → rd ∉ seen → fs.readdir dir = some entries →
      e ∈ entries → fs.lstat (dir ++ [e]) = some FsNode.symlink →
      fs.realpath (dir ++ [e]) = some resolved → inRootB resolved root = true →
      fs.statF (dir ++ [e]) = some (FsNode.file size) → size ≤ MAX_HASHABLE_SIZE →
      dir ++ [e] ∈ (listFilesRecursive fs (fuel2 + 1) dir root seen).1) := by
  refine ⟨?_, ?_, ?_⟩
  · intro p rp hp hsym hrp
    obtain ⟨-, hgood⟩ := listFilesRecursive_good fs root fuel root []
      (List.prefix_refl root) p hp
    obtain ⟨rp2, hrp2, hin2⟩ := hgood hsym
    rw [hrp] at hrp2
    cases hrp2
    exact hin2
  · intro p rp hsym hrp hout hroot hmem
    obtain ⟨pair, hpair, hfst⟩ := List.mem_map.mp hmem
    obtain ⟨q, hq, hfq⟩ := List.mem_filterMap.mp hpair
    have hq2 : q ∈ (listFilesRecursive fs fuel root root []).1 :=
      (List.mem_insertionSort fsPathLe).mp hq
    obtain ⟨hqroot, hgood⟩ := listFilesRecursive_good fs root fuel root []
      (List.prefix_refl root) q hq2
    cases hch : fs.contentHash q with
    | none => rw [hch] at hfq; cases hfq
    | some h =>
      rw [hch] at hfq
      cases hfq
      simp only at hfst
      have hqp : q = p := by
        have h2 := congrArg (fun l => root ++ l) hfst
        simp only at h2
        rw [relTo_spec root q hqroot, relTo_spec root p hroot] at h2
        exact h2
      subst hqp
      obtain ⟨rp2, hrp2, hin2⟩ := hgood hsym
      rw [hrp] at hrp2
      cases hrp2
      rw [hout] at hin2
      cases hin2
  · intro fuel2 dir rd seen entries e resolved size hrd hnv hread he hl hr hin hs hsz
    have heq : (listFilesRecursive fs (fuel2 + 1) dir root seen).1
        = (lfrGo (fun p s => listFilesRecursive fs fuel2 p root s) fs dir root
            entries (rd :: seen)).1 := by
      simp [listFilesRecursive, hrd, hnv, hread]
    rw [heq]
    exact lfrGo_mem_symlink fs root dir _ e resolved size hl hr hin hs hsz entries
      (rd :: seen) he

/-- Witness for C2 on the sample filesystem: the in-root symlink `good` is
included by the traversal, and the escaping symlink `evil` has no entry in
the snapshot map. -/
theorem snapshot_skips_escaping_symlinks_witness :
    ["r", "good"] ∈ (listFilesRecursive sampleFsys 2 ["r"] ["r"] []).1 ∧
    relTo ["r"] ["r", "evil"]
      ∉ (snapshotDirectoryHashes sampleFsys 2 ["r"]).map Prod.fst :=
  ⟨(snapshot_skips_escaping_symlinks sampleFsys 2 ["r"]).2.2 1 ["r"] ["r"] []
      ["data", "evil", "good"] "good" ["r", "data"] 3 rfl (by simp) rfl
      (by decide) rfl rfl (by decide) rfl (by decide),
   (snapshot_skips_escaping_symlinks sampleFsys 2 ["r"]).2.1 ["r", "evil"]
      ["secret", "key"] rfl rfl (by decide) ⟨["evil"], rfl⟩⟩

end Lobstercage
